import Mathlib

/-!
Shallow embedding of `src/compute_eps.py` (PLD-Accountant): the two entry
points `get_epsilon_unbounded` and `get_epsilon_bounded` compute the DP
epsilon for a target delta by building a privacy-loss density on a grid,
composing it `ncomp` times through a DFT, and running a Newton iteration.

Modelling conventions:
- Python/numpy floats are modelled as real numbers `ℝ`; `complex128` values
  as `ℂ`.  The grid `np.linspace(-L, L-dx, nx)` has exactly the entries
  `-L + i*dx` with `dx = 2L/nx`.
- numpy slicing `a[s:]` with an integer `s` (possibly negative) is modelled
  by `sliceStart`, which clamps exactly as numpy does.
- The in-place half-swap of an array (`temp = a[half:]; a[half:] = a[:half];
  a[:half] = temp`) is `flipA`.
- `np.fft.fft` / `np.fft.ifft` are `dftK` / `idftK` (numpy's conventions:
  forward sum with `exp(-2πi jk/n)`, inverse normalised by `1/n`).
- `FF1 ** ncomp` on complex values is the principal-branch complex power,
  which is Mathlib's `cpow` (`z ^ (w : ℂ)`); both send `0` to `0` for a
  nonzero exponent.
- The PLD formulas are evaluated by the source on real-valued complex
  numbers; on the index ranges the code assigns (where the logarithm and
  square-root arguments are positive reals) the imaginary parts are zero,
  and the model uses real arithmetic there, exactly as `np.real(...)` keeps.
- Newton state: after the first update `eps_0`, `delta_temp` and
  `derivative` are complex scalars in the source; the comparison
  `eps_0 < -L or eps_0 > L` on complex values is numpy's lexicographic
  order (real part first, then imaginary part), modelled by `npLT`.
- The `while` loop is modelled with explicit fuel; `none` means the loop has
  not terminated within the given fuel.  `print` diagnostics are modelled as
  a `Msg` value returned next to the result.
-/

namespace PLD

noncomputable section

open Finset

/-- Newton tolerance, `tol_newton = 1e-10` in the source. -/
def tolNewton : ℝ := 1e-10

/-- Effective start of the numpy slice `a[s:]` on an array of length `nx`:
negative `s` counts from the end, and the result is clamped to `[0, nx]`. -/
def sliceStart (nx : ℕ) (s : ℤ) : ℕ :=
  if s < 0 then ((nx : ℤ) + s).toNat else min s.toNat nx

/-- Grid point `x_i = -L + i * dx`, `dx = 2L/nx`
(`x = np.linspace(-L, L - dx, nx)`). -/
def xg (nx : ℕ) (L : ℝ) (i : ℕ) : ℝ :=
  -L + i * (2 * L / nx)

/-- Half-swap of an `nx`-length array: entries `[0, nx/2)` and `[nx/2, nx)`
are exchanged (the matrix `D = [0 I; I 0]` of the source comments). -/
def flipA {α : Type} (nx : ℕ) (v : ℕ → α) (i : ℕ) : α :=
  if i < nx / 2 then v (i + nx / 2)
  else if i < nx then v (i - nx / 2)
  else v i

/-- Forward DFT, numpy convention: `A_k = Σ_j a_j exp(-2πi jk/n)`. -/
def dftK (nx : ℕ) (v : ℕ → ℂ) (k : ℕ) : ℂ :=
  ∑ j ∈ Finset.range nx, v j * Complex.exp (-(2 * Real.pi * Complex.I) * j * k / nx)

/-- Inverse DFT, numpy convention: `a_j = (1/n) Σ_k A_k exp(2πi jk/n)`. -/
def idftK (nx : ℕ) (v : ℕ → ℂ) (j : ℕ) : ℂ :=
  (1 / (nx : ℂ)) * ∑ k ∈ Finset.range nx, v k * Complex.exp ((2 * Real.pi * Complex.I) * j * k / nx)

/-- Gaussian mixture weight
`ALinvx = (1/√(2πσ²)) ((1-q) e^{-v²/(2σ²)} + q e^{-(v-1)²/(2σ²)})`. -/
def ALinv (sigma q v : ℝ) : ℝ :=
  (1 / Real.sqrt (2 * Real.pi * sigma ^ 2)) *
    ((1 - q) * Real.exp (-v * v / (2 * sigma ^ 2)) +
      q * Real.exp (-(v - 1) * (v - 1) / (2 * sigma ^ 2)))

/-- Remove/add variant: boundary index
`ii = int(floor(nx (L + log(1-q)) / (2L)))`. -/
def iiU (nx : ℕ) (q L : ℝ) : ℤ :=
  ⌊(nx : ℝ) * (L + Real.log (1 - q)) / (2 * L)⌋

/-- Remove/add variant: inverse transform
`Linvx = σ² log((e^t - (1-q))/q) + 1/2` at the grid value `t`. -/
def LinvxU (sigma q t : ℝ) : ℝ :=
  sigma ^ 2 * Real.log ((Real.exp t - (1 - q)) / q) + 0.5

/-- Remove/add variant: derivative `dLinvx = σ² e^t / (e^t - (1-q))`. -/
def dLinvxU (sigma q t : ℝ) : ℝ :=
  sigma ^ 2 * Real.exp t / (Real.exp t - (1 - q))

/-- Remove/add variant density `fx`: zeros, then
`fx[ii+1:] = Re(ALinvx * dLinvx)`. -/
def fxU (sigma q : ℝ) (nx : ℕ) (L : ℝ) (j : ℕ) : ℝ :=
  if sliceStart nx (iiU nx q L + 1) ≤ j ∧ j < nx then
    ALinv sigma q (LinvxU sigma q (xg nx L j)) * dLinvxU sigma q (xg nx L j)
  else 0

/-- Substitution variant: `c = q e^{-1/(2σ²)}`. -/
def cB (sigma q : ℝ) : ℝ :=
  q * Real.exp (-1 / (2 * sigma ^ 2))

/-- Substitution variant: the quadratic-root quantity
`term1 = (-(1-q)(1-e^t) + √((1-q)²(1-e^t)² + 4c²e^t)) / (2c)` before the
floor at `1e-16`. -/
def term1rawB (sigma q t : ℝ) : ℝ :=
  (-(1 - q) * (1 - Real.exp t) +
      Real.sqrt ((1 - q) ^ 2 * (1 - Real.exp t) ^ 2 + 4 * cB sigma q ^ 2 * Real.exp t)) /
    (2 * cB sigma q)

/-- Substitution variant: `term1 = np.maximum(term1, 1e-16)`. -/
def term1B (sigma q t : ℝ) : ℝ :=
  max (term1rawB sigma q t) 1e-16

/-- Substitution variant: `Linvx = σ² log(term1)`. -/
def LinvxB (sigma q t : ℝ) : ℝ :=
  sigma ^ 2 * Real.log (term1B sigma q t)

/-- Substitution variant: closed-form derivative `dLinvx` (source lines
`sq`, `nom1`, `term1`, `nom2`, `dLinvx`). -/
def dLinvxB (sigma q t : ℝ) : ℝ :=
  let ey := Real.exp t
  let sq := Real.sqrt ((1 - q) ^ 2 * (1 - ey) ^ 2 + 4 * cB sigma q ^ 2 * ey)
  let nom1 := 4 * cB sigma q ^ 2 * ey - 2 * (1 - q) ^ 2 * ey * (1 - ey)
  let term1 := nom1 / (2 * sq)
  let nom2 := (term1 + (1 - q) * ey) * (sq + (1 - q) * (1 - ey))
  sigma ^ 2 * nom2 / (4 * cB sigma q ^ 2 * ey)

/-- Substitution variant density `fx`: with `ii = 1`,
`fx[ii-1:] = Re(ALinvx * dLinvx)` assigns every grid point. -/
def fxB (sigma q : ℝ) (nx : ℕ) (L : ℝ) (j : ℕ) : ℝ :=
  if sliceStart nx ((1 : ℤ) - 1) ≤ j ∧ j < nx then
    ALinv sigma q (LinvxB sigma q (xg nx L j)) * dLinvxB sigma q (xg nx L j)
  else 0

/-- Forward transform of the flipped, `dx`-scaled density:
`FF1 = np.fft.fft(fx * dx)` (the array `fx` has already been flipped). -/
def FF1 (nx : ℕ) (L : ℝ) (fx : ℕ → ℝ) (k : ℕ) : ℂ :=
  dftK nx (fun j => ((flipA nx fx j * (2 * L / nx) : ℝ) : ℂ)) k

/-- Composed density `cfx`: `np.fft.ifft(FF1 ** ncomp / dx)`, flipped back. -/
def cfxOf (nx : ℕ) (L ncomp : ℝ) (fx : ℕ → ℝ) : ℕ → ℂ :=
  flipA nx (fun j =>
    idftK nx (fun k => FF1 nx L fx k ^ (ncomp : ℂ) / ((2 * L / nx : ℝ) : ℂ)) j)

/-- Composed density of the remove/add entry point. -/
def cfxU (sigma q ncomp : ℝ) (nx : ℕ) (L : ℝ) : ℕ → ℂ :=
  cfxOf nx L ncomp (fxU sigma q nx L)

/-- Composed density of the substitution entry point. -/
def cfxB (sigma q ncomp : ℝ) (nx : ℕ) (L : ℝ) : ℕ → ℂ :=
  cfxOf nx L ncomp (fxB sigma q nx L)

/-- Tail-integral evaluation of `δ(eps)` and `δ'(eps)` from the composed
density: `kk = int(floor(nx (L + Re eps) / (2L)))`, then
`delta = (Σ_{i ∈ [kk+1:]} (1 - e^{eps - x_i}) cfx_i) dx` and
`derivative = (Σ_{i ∈ [kk+1:]} (-e^{eps - x_i}) cfx_i) dx`. -/
def deltaDeriv (nx : ℕ) (L : ℝ) (cfx : ℕ → ℂ) (eps : ℂ) : ℂ × ℂ :=
  let dx : ℝ := 2 * L / nx
  let kk : ℤ := ⌊(nx : ℝ) * (L + eps.re) / (2 * L)⌋
  let S := (Finset.range nx).filter (fun i => sliceStart nx (kk + 1) ≤ i)
  ((∑ i ∈ S, (1 - Complex.exp (eps - ((xg nx L i : ℝ) : ℂ))) * cfx i) * ((dx : ℝ) : ℂ),
    (∑ i ∈ S, -Complex.exp (eps - ((xg nx L i : ℝ) : ℂ)) * cfx i) * ((dx : ℝ) : ℂ))

/-- Newton solver state: the iterate and the last evaluated
`(delta_temp, derivative)`; all three are complex scalars in the source
once the first update has happened. -/
structure NS where
  eps : ℂ
  delta : ℂ
  deriv : ℂ

/-- numpy's ordering of complex scalars: lexicographic on (real part,
imaginary part); this is what `eps_0 < -L or eps_0 > L` uses once `eps_0`
is complex. -/
def npLT (a b : ℂ) : Prop :=
  a.re < b.re ∨ (a.re = b.re ∧ a.im < b.im)

instance (a b : ℂ) : Decidable (npLT a b) := by
  unfold npLT; exact inferInstance

/-- The `while` loop of both entry points (source lines 83-109 and 195-223
are identical), with explicit fuel.  The body updates the iterate, breaks
if it left the window, and otherwise re-evaluates the integrand sums —
including the redundant first computation of `delta_temp` that the source
performs and discards. -/
def newtonLoop (nx : ℕ) (L target : ℝ) (cfx : ℕ → ℂ) : ℕ → NS → Option NS
  | 0, _ => none
  | fuel + 1, s =>
    if tolNewton < Complex.abs (s.delta - (target : ℂ)) then
      let eps' := s.eps - (s.delta - (target : ℂ)) / s.deriv
      if npLT eps' ((-L : ℝ) : ℂ) ∨ npLT ((L : ℝ) : ℂ) eps' then
        some ⟨eps', s.delta, s.deriv⟩
      else
        let dx : ℝ := 2 * L / nx
        let kk : ℤ := ⌊(nx : ℝ) * (L + eps'.re) / (2 * L)⌋
        let S := (Finset.range nx).filter (fun i => sliceStart nx (kk + 1) ≤ i)
        let delta_temp :=
          (∑ i ∈ S, (1 - Complex.exp (eps' - ((xg nx L i : ℝ) : ℂ))) * cfx i) * ((dx : ℝ) : ℂ)
        let delta_temp :=
          (∑ i ∈ S, (1 - Complex.exp (eps' - ((xg nx L i : ℝ) : ℂ))) * cfx i) * ((dx : ℝ) : ℂ)
        let derivative :=
          (∑ i ∈ S, -Complex.exp (eps' - ((xg nx L i : ℝ) : ℂ)) * cfx i) * ((dx : ℝ) : ℂ)
        newtonLoop nx L target cfx fuel ⟨eps', delta_temp, derivative⟩
    else some s

/-- The spec's simplification of the loop body: `(delta_temp, derivative)`
evaluated exactly once per iteration, the duplicated sum removed. -/
def newtonLoopDedup (nx : ℕ) (L target : ℝ) (cfx : ℕ → ℂ) : ℕ → NS → Option NS
  | 0, _ => none
  | fuel + 1, s =>
    if tolNewton < Complex.abs (s.delta - (target : ℂ)) then
      let eps' := s.eps - (s.delta - (target : ℂ)) / s.deriv
      if npLT eps' ((-L : ℝ) : ℂ) ∨ npLT ((L : ℝ) : ℂ) eps' then
        some ⟨eps', s.delta, s.deriv⟩
      else
        let dx : ℝ := 2 * L / nx
        let kk : ℤ := ⌊(nx : ℝ) * (L + eps'.re) / (2 * L)⌋
        let S := (Finset.range nx).filter (fun i => sliceStart nx (kk + 1) ≤ i)
        let delta_temp :=
          (∑ i ∈ S, (1 - Complex.exp (eps' - ((xg nx L i : ℝ) : ℂ))) * cfx i) * ((dx : ℝ) : ℂ)
        let derivative :=
          (∑ i ∈ S, -Complex.exp (eps' - ((xg nx L i : ℝ) : ℂ)) * cfx i) * ((dx : ℝ) : ℂ)
        newtonLoopDedup nx L target cfx fuel ⟨eps', delta_temp, derivative⟩
    else some s

/-- Solver state on entry to the loop: `eps_0 = 0` and
`(delta_temp, derivative)` evaluated at it (source lines 34, 60, 70-78). -/
def initState (nx : ℕ) (L : ℝ) (cfx : ℕ → ℂ) : NS :=
  ⟨0, (deltaDeriv nx L cfx 0).1, (deltaDeriv nx L cfx 0).2⟩

/-- Return value of an entry point: a finite float or the sentinel
`float('inf')`. -/
inductive PyFloat where
  | inf : PyFloat
  | val (r : ℝ) : PyFloat

/-- The diagnostic printed to standard output: the out-of-window error, or
the success report carrying the composition count, the target delta and the
solved epsilon. -/
inductive Msg where
  | errWindow : Msg
  | reportUnbounded (ncomp target eps : ℝ) : Msg
  | reportBounded (ncomp target eps : ℝ) : Msg

/-- Driver epilogue shared by both entry points: fail with `inf` if the
real part of the final iterate is outside `[-L, L]`, otherwise return it;
a diagnostic accompanies both outcomes. -/
def epilogue (L : ℝ) (report : ℝ → Msg) (s : NS) : PyFloat × Msg :=
  if s.eps.re < -L ∨ L < s.eps.re then (PyFloat.inf, Msg.errWindow)
  else (PyFloat.val s.eps.re, report s.eps.re)

/-- Entry point `get_epsilon_unbounded` (remove/add relation), with fuel for
the Newton loop; `none` when the loop has not terminated within the fuel. -/
def get_epsilon_unbounded (target sigma q ncomp : ℝ) (nx : ℕ) (L : ℝ) (fuel : ℕ) :
    Option (PyFloat × Msg) :=
  let cfx := cfxU sigma q ncomp nx L
  (newtonLoop nx L target cfx fuel (initState nx L cfx)).map
    (epilogue L (Msg.reportUnbounded ncomp target))

/-- Entry point `get_epsilon_bounded` (substitution relation). -/
def get_epsilon_bounded (target sigma q ncomp : ℝ) (nx : ℕ) (L : ℝ) (fuel : ℕ) :
    Option (PyFloat × Msg) :=
  let cfx := cfxB sigma q ncomp nx L
  (newtonLoop nx L target cfx fuel (initState nx L cfx)).map
    (epilogue L (Msg.reportBounded ncomp target))

/-- Variant drivers built on the deduplicated loop body (for the
refinement claim). -/
def get_epsilon_unbounded_dedup (target sigma q ncomp : ℝ) (nx : ℕ) (L : ℝ) (fuel : ℕ) :
    Option (PyFloat × Msg) :=
  let cfx := cfxU sigma q ncomp nx L
  (newtonLoopDedup nx L target cfx fuel (initState nx L cfx)).map
    (epilogue L (Msg.reportUnbounded ncomp target))

/-- Substitution-relation driver on the deduplicated loop body. -/
def get_epsilon_bounded_dedup (target sigma q ncomp : ℝ) (nx : ℕ) (L : ℝ) (fuel : ℕ) :
    Option (PyFloat × Msg) :=
  let cfx := cfxB sigma q ncomp nx L
  (newtonLoopDedup nx L target cfx fuel (initState nx L cfx)).map
    (epilogue L (Msg.reportBounded ncomp target))

end

/-! Theorems.  Each claim of the specification gets one theorem below;
shared helper lemmas come first. -/

/-- A numpy slice with a nonnegative start index keeps exactly the indices
from the start on. -/
theorem sliceStart_nonneg_le (nx : ℕ) (s : ℤ) (hs : 0 ≤ s) (j : ℕ) (hj : j < nx) :
    sliceStart nx s ≤ j ↔ s ≤ (j : ℤ) := by
  unfold sliceStart
  rw [if_neg (by omega)]
  omega

/-- Comparison of a grid point with a threshold, in terms of the index
formula `nx (L + C) / (2L)` the source floors. -/
theorem grid_le_iff (nx : ℕ) (L C : ℝ) (hnx : 0 < nx) (hL : 0 < L) (j : ℕ) :
    (j : ℝ) ≤ (nx : ℝ) * (L + C) / (2 * L) ↔ xg nx L j ≤ C := by
  have hd : (0 : ℝ) < 2 * L / nx := div_pos (by linarith) (by exact_mod_cast hnx)
  have ht : (nx : ℝ) * (L + C) / (2 * L) = (L + C) / (2 * L / nx) := by
    rw [div_div_eq_mul_div]; ring
  rw [ht, le_div_iff hd]
  unfold xg
  constructor <;> intro h <;> linarith

/-- Strict version of `grid_le_iff`. -/
theorem grid_lt_iff (nx : ℕ) (L r : ℝ) (hnx : 0 < nx) (hL : 0 < L) (i : ℕ) :
    (nx : ℝ) * (L + r) / (2 * L) < (i : ℝ) ↔ r < xg nx L i := by
  have hd : (0 : ℝ) < 2 * L / nx := div_pos (by linarith) (by exact_mod_cast hnx)
  have ht : (nx : ℝ) * (L + r) / (2 * L) = (L + r) / (2 * L / nx) := by
    rw [div_div_eq_mul_div]; ring
  rw [ht, div_lt_iff hd]
  unfold xg
  constructor <;> intro h <;> linarith

/-- C4: in the remove/add variant the density `fx` vanishes at every index
at or below the boundary index `ii` — which is the last index whose grid
point satisfies `x ≤ log(1-q)` — and above `ii` equals the
change-of-variables product `ALinvx * dLinvx` at
`Linvx = sigma^2 log((e^x - (1-q))/q) + 1/2`; entries beyond the array
length `nx` do not exist (the model keeps them `0`), and every entry is
non-negative. -/
theorem fxU_density_spec (sigma q : ℝ) (nx : ℕ) (L : ℝ)
    (hq0 : 0 < q) (hq1 : q < 1) (hL : 0 < L) (hlog : -L ≤ Real.log (1 - q)) :
    (∀ j : ℕ, (j : ℤ) ≤ iiU nx q L → fxU sigma q nx L j = 0) ∧
    (∀ j : ℕ, iiU nx q L < (j : ℤ) → j < nx →
        fxU sigma q nx L j =
          ALinv sigma q (LinvxU sigma q (xg nx L j)) * dLinvxU sigma q (xg nx L j)) ∧
    (∀ j : ℕ, j < nx → ((j : ℤ) ≤ iiU nx q L ↔ xg nx L j ≤ Real.log (1 - q))) ∧
    (∀ j : ℕ, nx ≤ j → fxU sigma q nx L j = 0) ∧
    (∀ j : ℕ, 0 ≤ fxU sigma q nx L j) := by
  have hii0 : 0 ≤ iiU nx q L := by
    unfold iiU
    apply Int.le_floor.mpr
    push_cast
    apply div_nonneg
    · apply mul_nonneg (Nat.cast_nonneg _)
      linarith
    · linarith
  have hcond : ∀ j : ℕ, j < nx → (sliceStart nx (iiU nx q L + 1) ≤ j ↔ iiU nx q L < (j : ℤ)) := by
    intro j hj
    rw [sliceStart_nonneg_le nx _ (by omega) j hj]
    omega
  have hchar : ∀ j : ℕ, j < nx → ((j : ℤ) ≤ iiU nx q L ↔ xg nx L j ≤ Real.log (1 - q)) := by
    intro j hj
    have hnx : 0 < nx := by omega
    unfold iiU
    rw [Int.le_floor]
    push_cast
    exact grid_le_iff nx L _ hnx hL j
  have hstrict : ∀ j : ℕ, j < nx → iiU nx q L < (j : ℤ) → Real.log (1 - q) < xg nx L j := by
    intro j hj h
    have hnx : 0 < nx := by omega
    unfold iiU at h
    rw [Int.floor_lt] at h
    push_cast at h
    exact (grid_lt_iff nx L _ hnx hL j).mp h
  refine ⟨?_, ?_, hchar, ?_, ?_⟩
  · intro j hjle
    unfold fxU
    rw [if_neg]
    rintro ⟨h1, h2⟩
    rw [hcond j h2] at h1
    omega
  · intro j h1 h2
    unfold fxU
    rw [if_pos ⟨(hcond j h2).mpr h1, h2⟩]
  · intro j hj
    unfold fxU
    rw [if_neg]
    rintro ⟨-, h2⟩
    omega
  · intro j
    unfold fxU
    split_ifs with h
    · obtain ⟨h1, h2⟩ := h
      have hlt : Real.log (1 - q) < xg nx L j := hstrict j h2 ((hcond j h2).mp h1)
      have h1q : (0 : ℝ) < 1 - q := by linarith
      have hden : 1 - q < Real.exp (xg nx L j) := by
        calc 1 - q = Real.exp (Real.log (1 - q)) := (Real.exp_log h1q).symm
        _ < Real.exp (xg nx L j) := Real.exp_lt_exp.mpr hlt
      apply mul_nonneg
      · unfold ALinv
        apply mul_nonneg
        · positivity
        · exact add_nonneg (mul_nonneg (by linarith) (Real.exp_pos _).le)
            (mul_nonneg hq0.le (Real.exp_pos _).le)
      · unfold dLinvxU
        apply div_nonneg
        · positivity
        · linarith
    · exact le_rfl

/-- C4 witness: the density structure at `sigma = 2`, `q = 1/2`, `nx = 4`,
`L = 20`. -/
theorem fxU_density_spec_witness :
    (∀ j : ℕ, (j : ℤ) ≤ iiU 4 (1/2) 20 → fxU 2 (1/2) 4 20 j = 0) ∧
    (∀ j : ℕ, iiU 4 (1/2) 20 < (j : ℤ) → j < 4 →
        fxU 2 (1/2) 4 20 j =
          ALinv 2 (1/2) (LinvxU 2 (1/2) (xg 4 20 j)) * dLinvxU 2 (1/2) (xg 4 20 j)) ∧
    (∀ j : ℕ, j < 4 → ((j : ℤ) ≤ iiU 4 (1/2) 20 ↔ xg 4 20 j ≤ Real.log (1 - 1/2))) ∧
    (∀ j : ℕ, 4 ≤ j → fxU 2 (1/2) 4 20 j = 0) ∧
    (∀ j : ℕ, 0 ≤ fxU 2 (1/2) 4 20 j) :=
  fxU_density_spec 2 (1/2) 4 20 (by norm_num) (by norm_num) (by norm_num)
    (by
      have h : (1 : ℝ) - 1/2 = (2 : ℝ)⁻¹ := by norm_num
      rw [h, Real.log_inv]
      linarith [Real.log_two_lt_d9])

/-- C7: the flip operation swaps the first half (indices `[0, nx/2)`) with
the second half (indices `[nx/2, nx)`) of an `nx`-length array, and for
every even `nx` applying it twice to any array yields the original array. -/
theorem flipA_swap_and_involutive (α : Type) (nx : ℕ) (v : ℕ → α) :
    (∀ i, i < nx / 2 → flipA nx v i = v (i + nx / 2)) ∧
    (∀ i, nx / 2 ≤ i → i < nx → flipA nx v i = v (i - nx / 2)) ∧
    (nx % 2 = 0 → ∀ i, flipA nx (flipA nx v) i = v i) := by
  refine ⟨fun i hi => by simp [flipA, hi], fun i h1 h2 => ?_, fun hev i => ?_⟩
  · unfold flipA
    rw [if_neg (by omega), if_pos h2]
  · unfold flipA
    split_ifs <;> first | (congr 1; omega) | rfl

/-- C5: in the substitution variant, the quadratic-root quantity `term1` is
floored at `1e-16` before the logarithm `Linvx = sigma^2 * log term1` is
taken, so the logarithm's argument is at least `1e-16`; and the density is
assigned on every grid point (no boundary index is excluded). -/
theorem bounded_term1_clamped (sigma q : ℝ) (nx : ℕ) (L : ℝ) (j : ℕ) (hj : j < nx) :
    1e-16 ≤ term1B sigma q (xg nx L j) ∧
    LinvxB sigma q (xg nx L j) = sigma ^ 2 * Real.log (term1B sigma q (xg nx L j)) ∧
    term1B sigma q (xg nx L j) = max (term1rawB sigma q (xg nx L j)) 1e-16 ∧
    fxB sigma q nx L j =
      ALinv sigma q (LinvxB sigma q (xg nx L j)) * dLinvxB sigma q (xg nx L j) := by
  refine ⟨le_max_right _ _, rfl, rfl, ?_⟩
  unfold fxB
  rw [if_pos ⟨by simp [sliceStart], hj⟩]

/-- C5 witness: the clamp and full-grid assignment at a concrete input. -/
theorem bounded_term1_clamped_witness :
    1e-16 ≤ term1B 1 (1/2) (xg 1 1 0) ∧
    LinvxB 1 (1/2) (xg 1 1 0) = 1 ^ 2 * Real.log (term1B 1 (1/2) (xg 1 1 0)) ∧
    term1B 1 (1/2) (xg 1 1 0) = max (term1rawB 1 (1/2) (xg 1 1 0)) 1e-16 ∧
    fxB 1 (1/2) 1 1 0 =
      ALinv 1 (1/2) (LinvxB 1 (1/2) (xg 1 1 0)) * dLinvxB 1 (1/2) (xg 1 1 0) :=
  bounded_term1_clamped 1 (1/2) 1 1 0 (by norm_num)

/-- C3 counterexample: at `nx = 2`, `L = 1`, `cfx ≡ I`, `eps_0 = -1`, the
tail-integral evaluation does not return the spec's formula
`dx * Σ_{i>k} (1 - exp(eps_0 - x_i)) * Re(cfx_i)` with `k = 1` the first
grid index where `1 - exp(eps_0 - x)` is positive (`x_0 = -1`, `x_1 = 0`):
that sum is empty hence `0`, while the code's value is
`(1 - e^{-1}) * I ≠ 0` — the imaginary part of `cfx` enters the sum and the
first positive grid point is included, not excluded. -/
theorem deltaDeriv_respec_counterexample :
    (deltaDeriv 2 1 (fun _ => Complex.I) (-1)).1 ≠
      ((2 * 1 / 2 : ℝ) : ℂ) *
        ∑ i ∈ (Finset.range 2).filter (fun i => 1 < i),
          (1 - Complex.exp ((-1 : ℂ) - ((xg 2 1 i : ℝ) : ℂ))) *
            (((fun _ : ℕ => Complex.I) i).re : ℂ) ∧
    ((deltaDeriv 2 1 (fun _ => Complex.I) (-1)).1).im ≠ 0 := by
  have hexp : Real.exp (-1) < 1 := by
    have h3 : Real.exp (-1) * Real.exp 1 = 1 := by
      rw [← Real.exp_add]; norm_num
    nlinarith [Real.add_one_le_exp 1, Real.exp_pos (-1 : ℝ)]
  have hval : (deltaDeriv 2 1 (fun _ => Complex.I) (-1)).1 =
      (1 - Complex.exp (-1)) * Complex.I := by
    simp only [deltaDeriv]
    have h1 : ((-1 : ℂ)).re = -1 := by simp
    have hfloor : ⌊((2 : ℕ) : ℝ) * (1 + ((-1 : ℂ)).re) / (2 * 1)⌋ = 0 := by
      rw [h1]; norm_num
    rw [hfloor]
    have hS : (Finset.range 2).filter (fun i => sliceStart 2 (0 + 1) ≤ i) = {1} := by
      decide
    rw [hS, Finset.sum_singleton]
    have hx : xg 2 1 1 = 0 := by unfold xg; norm_num
    rw [hx]
    push_cast
    ring_nf
  have him : ((deltaDeriv 2 1 (fun _ => Complex.I) (-1)).1).im = 1 - Real.exp (-1) := by
    rw [hval]
    have h2 : Complex.exp (-1 : ℂ) = ((Real.exp (-1) : ℝ) : ℂ) := by
      rw [show (-1 : ℂ) = ((-1 : ℝ) : ℂ) from by norm_num, ← Complex.ofReal_exp]
    have h3 : (Complex.exp (-1 : ℂ)).re = Real.exp (-1) := by
      rw [h2, Complex.ofReal_re]
    simp [h3]
  constructor
  · intro hEq
    have hRHS : ((2 * 1 / 2 : ℝ) : ℂ) *
        ∑ i ∈ (Finset.range 2).filter (fun i => 1 < i),
          (1 - Complex.exp ((-1 : ℂ) - ((xg 2 1 i : ℝ) : ℂ))) *
            (((fun _ : ℕ => Complex.I) i).re : ℂ) = 0 := by
      have hE : (Finset.range 2).filter (fun i => 1 < i) = ∅ := by decide
      rw [hE, Finset.sum_empty, mul_zero]
    have h0 : ((deltaDeriv 2 1 (fun _ => Complex.I) (-1)).1).im = 0 := by
      rw [hEq, hRHS]
      simp
    rw [him] at h0
    linarith
  · rw [him]
    intro h
    linarith

/-- C3 amended: the tail-integral evaluation returns
`delta = dx * Σ (1 - exp(eps_0 - x_i)) * cfx_i` and
`delta' = dx * Σ (-exp(eps_0 - x_i)) * cfx_i`, the sums running over the
grid points with `x_i > Re eps_0` — i.e. indices strictly above
`kk = ⌊nx (L + Re eps_0) / (2L)⌋`, which includes the first index where
`1 - exp(eps_0 - x)` is positive — and the full complex value of `cfx`
enters the sums, not only its real part. -/
theorem deltaDeriv_tail_sum (nx : ℕ) (L : ℝ) (cfx : ℕ → ℂ) (eps : ℂ)
    (hnx : 0 < nx) (hL : 0 < L) (heps : -L ≤ eps.re) :
    (deltaDeriv nx L cfx eps).1 =
      ((2 * L / nx : ℝ) : ℂ) *
        ∑ i ∈ (Finset.range nx).filter (fun i => eps.re < xg nx L i),
          (1 - Complex.exp (eps - ((xg nx L i : ℝ) : ℂ))) * cfx i ∧
    (deltaDeriv nx L cfx eps).2 =
      ((2 * L / nx : ℝ) : ℂ) *
        ∑ i ∈ (Finset.range nx).filter (fun i => eps.re < xg nx L i),
          -Complex.exp (eps - ((xg nx L i : ℝ) : ℂ)) * cfx i := by
  have hset : (Finset.range nx).filter
        (fun i => sliceStart nx (⌊(nx : ℝ) * (L + eps.re) / (2 * L)⌋ + 1) ≤ i) =
      (Finset.range nx).filter (fun i => eps.re < xg nx L i) := by
    apply Finset.filter_congr
    intro i hi
    rw [Finset.mem_range] at hi
    have hkk0 : 0 ≤ ⌊(nx : ℝ) * (L + eps.re) / (2 * L)⌋ := by
      apply Int.le_floor.mpr
      push_cast
      apply div_nonneg
      · exact mul_nonneg (Nat.cast_nonneg _) (by linarith)
      · linarith
    rw [sliceStart_nonneg_le nx _ (by omega) i hi, Int.add_one_le_iff, Int.floor_lt]
    push_cast
    exact grid_lt_iff nx L _ hnx hL i
  simp only [deltaDeriv]
  rw [hset]
  constructor <;> ring

/-- C3 amended, witness: at `nx = 2`, `L = 1`, `cfx ≡ I`, `eps_0 = -1`. -/
theorem deltaDeriv_tail_sum_witness :
    (deltaDeriv 2 1 (fun _ => Complex.I) (-1)).1 =
      ((2 * 1 / 2 : ℝ) : ℂ) *
        ∑ i ∈ (Finset.range 2).filter (fun i => ((-1 : ℂ)).re < xg 2 1 i),
          (1 - Complex.exp ((-1 : ℂ) - ((xg 2 1 i : ℝ) : ℂ))) * (fun _ : ℕ => Complex.I) i ∧
    (deltaDeriv 2 1 (fun _ => Complex.I) (-1)).2 =
      ((2 * 1 / 2 : ℝ) : ℂ) *
        ∑ i ∈ (Finset.range 2).filter (fun i => ((-1 : ℂ)).re < xg 2 1 i),
          -Complex.exp ((-1 : ℂ) - ((xg 2 1 i : ℝ) : ℂ)) * (fun _ : ℕ => Complex.I) i :=
  deltaDeriv_tail_sum 2 1 (fun _ => Complex.I) (-1) (by norm_num) (by norm_num)
    (by simp)

/-- C6: for both entry points the composed density is
`flip (IDFT ((DFT (flip fx * dx)) ^ ncomp / dx))`: the aligned density
scaled by `dx` is forward-transformed, raised element-wise to the complex
power `ncomp`, divided by `dx`, inverse-transformed, and the half-swap is
undone, with nothing in between. -/
theorem composition_pipeline (sigma q ncomp : ℝ) (nx : ℕ) (L : ℝ) (i : ℕ) :
    cfxU sigma q ncomp nx L i =
      flipA nx (fun j => idftK nx (fun k =>
        dftK nx (fun j' => ((flipA nx (fxU sigma q nx L) j' * (2 * L / nx) : ℝ) : ℂ)) k
          ^ (ncomp : ℂ) / ((2 * L / nx : ℝ) : ℂ)) j) i ∧
    cfxB sigma q ncomp nx L i =
      flipA nx (fun j => idftK nx (fun k =>
        dftK nx (fun j' => ((flipA nx (fxB sigma q nx L) j' * (2 * L / nx) : ℝ) : ℂ)) k
          ^ (ncomp : ℂ) / ((2 * L / nx : ℝ) : ℂ)) j) i :=
  ⟨rfl, rfl⟩

/-- The loop exits immediately (returning its state unchanged) when the
residual is within tolerance. -/
theorem newtonLoop_converged (nx : ℕ) (L target : ℝ) (cfx : ℕ → ℂ) (fuel : ℕ) (s : NS)
    (h : Complex.abs (s.delta - (target : ℂ)) ≤ tolNewton) :
    newtonLoop nx L target cfx (fuel + 1) s = some s := by
  simp only [newtonLoop]
  rw [if_neg (not_lt.mpr h)]

/-- C1: for both entry points the Newton solver starts from `eps_0 = 0`
(first conjunct: the initial state both drivers pass to the loop), and as
long as `|delta_temp - target_delta| > 1e-10` performs the update
`eps_0 ← eps_0 - (delta_temp - target_delta)/derivative`, re-evaluating
delta and its derivative at the new iterate through the tail-integral
evaluator (second conjunct: one unfolding of the loop); the loop terminates
either with `|delta_temp - target_delta| ≤ 1e-10` or with an updated
iterate outside `[-L, L]` in the code's (lexicographic) comparison (third
conjunct). -/
theorem newton_solver_c1 (nx : ℕ) (L target : ℝ) (cfx : ℕ → ℂ) :
    (initState nx L cfx).eps = 0 ∧
    (∀ fuel s, newtonLoop nx L target cfx (fuel + 1) s =
        if tolNewton < Complex.abs (s.delta - (target : ℂ)) then
          (let eps' := s.eps - (s.delta - (target : ℂ)) / s.deriv
           if npLT eps' ((-L : ℝ) : ℂ) ∨ npLT ((L : ℝ) : ℂ) eps' then
             some ⟨eps', s.delta, s.deriv⟩
           else
             newtonLoop nx L target cfx fuel
               ⟨eps', (deltaDeriv nx L cfx eps').1, (deltaDeriv nx L cfx eps').2⟩)
        else some s) ∧
    (∀ fuel s s', newtonLoop nx L target cfx fuel s = some s' →
        Complex.abs (s'.delta - (target : ℂ)) ≤ tolNewton ∨
          npLT s'.eps ((-L : ℝ) : ℂ) ∨ npLT ((L : ℝ) : ℂ) s'.eps) := by
  refine ⟨rfl, fun fuel s => rfl, ?_⟩
  intro fuel
  induction fuel with
  | zero => intro s s' h; simp [newtonLoop] at h
  | succ n ih =>
    intro s s' h
    simp only [newtonLoop] at h
    split_ifs at h with h1 h2
    · cases h
      right
      exact h2
    · exact ih _ _ h
    · cases h
      left
      exact not_lt.mp h1

/-- C2: each entry point returns the sentinel `inf` exactly when the real
part of the final Newton iterate lies outside `[-L, L]`, with the
out-of-window diagnostic; otherwise it returns the real part of the final
iterate together with the success diagnostic. -/
theorem driver_result_c2 (target sigma q ncomp : ℝ) (nx : ℕ) (L : ℝ) (fuel : ℕ) :
    (∀ s, newtonLoop nx L target (cfxU sigma q ncomp nx L) fuel
          (initState nx L (cfxU sigma q ncomp nx L)) = some s →
        ((s.eps.re < -L ∨ L < s.eps.re) →
          get_epsilon_unbounded target sigma q ncomp nx L fuel =
            some (PyFloat.inf, Msg.errWindow)) ∧
        (¬(s.eps.re < -L ∨ L < s.eps.re) →
          get_epsilon_unbounded target sigma q ncomp nx L fuel =
            some (PyFloat.val s.eps.re, Msg.reportUnbounded ncomp target s.eps.re))) ∧
    (∀ s, newtonLoop nx L target (cfxB sigma q ncomp nx L) fuel
          (initState nx L (cfxB sigma q ncomp nx L)) = some s →
        ((s.eps.re < -L ∨ L < s.eps.re) →
          get_epsilon_bounded target sigma q ncomp nx L fuel =
            some (PyFloat.inf, Msg.errWindow)) ∧
        (¬(s.eps.re < -L ∨ L < s.eps.re) →
          get_epsilon_bounded target sigma q ncomp nx L fuel =
            some (PyFloat.val s.eps.re, Msg.reportBounded ncomp target s.eps.re))) := by
  refine ⟨fun s h => ⟨fun hw => ?_, fun hw => ?_⟩, fun s h => ⟨fun hw => ?_, fun hw => ?_⟩⟩
  · simp only [get_epsilon_unbounded]
    rw [h, Option.map_some']
    unfold epilogue
    rw [if_pos hw]
  · simp only [get_epsilon_unbounded]
    rw [h, Option.map_some']
    unfold epilogue
    rw [if_neg hw]
  · simp only [get_epsilon_bounded]
    rw [h, Option.map_some']
    unfold epilogue
    rw [if_pos hw]
  · simp only [get_epsilon_bounded]
    rw [h, Option.map_some']
    unfold epilogue
    rw [if_neg hw]

/-- The loop body with the duplicated evaluation removed computes the same
function as the original loop, at every fuel and state. -/
theorem newtonLoop_eq_dedup (nx : ℕ) (L target : ℝ) (cfx : ℕ → ℂ) :
    ∀ fuel s, newtonLoop nx L target cfx fuel s = newtonLoopDedup nx L target cfx fuel s := by
  intro fuel
  induction fuel with
  | zero => intro s; rfl
  | succ n ih =>
    intro s
    simp only [newtonLoop, newtonLoopDedup]
    split_ifs with h1 h2
    · rfl
    · exact ih _
    · rfl

/-- C8: replacing the loop body by the version that evaluates
`(delta_temp, derivative)` exactly once per iteration yields the same
result on every input — for the loop itself and for both entry points. -/
theorem dedup_refinement (target sigma q ncomp L : ℝ) (nx fuel : ℕ) (s : NS) (cfx : ℕ → ℂ) :
    newtonLoop nx L target cfx fuel s = newtonLoopDedup nx L target cfx fuel s ∧
    get_epsilon_unbounded target sigma q ncomp nx L fuel =
      get_epsilon_unbounded_dedup target sigma q ncomp nx L fuel ∧
    get_epsilon_bounded target sigma q ncomp nx L fuel =
      get_epsilon_bounded_dedup target sigma q ncomp nx L fuel := by
  refine ⟨newtonLoop_eq_dedup nx L target cfx fuel s, ?_, ?_⟩
  · simp only [get_epsilon_unbounded, get_epsilon_unbounded_dedup]
    rw [newtonLoop_eq_dedup]
  · simp only [get_epsilon_bounded, get_epsilon_bounded_dedup]
    rw [newtonLoop_eq_dedup]

/-- At `nx = 2`, `L = -1`, `eps_0 = 0` the integration slice `[kk+1:]` is
empty: `kk = ⌊2·(-1+0)/(2·(-1))⌋ = 1` and the slice starts at index `2`,
past the end of the grid.  So delta and derivative are `0` for any
composed density. -/
theorem deltaDeriv_empty_L_neg_one (cfx : ℕ → ℂ) :
    deltaDeriv 2 (-1 : ℝ) cfx 0 = (0, 0) := by
  simp only [deltaDeriv]
  have hfl : ⌊((2 : ℕ) : ℝ) * (-1 + ((0 : ℂ)).re) / (2 * (-1 : ℝ))⌋ = 1 := by
    norm_num
  rw [hfl]
  have hS : (Finset.range 2).filter (fun i => sliceStart 2 (1 + 1) ≤ i) = ∅ := by decide
  rw [hS]
  simp

/-- At `nx = 2`, `L = 1`, `eps_0 = 0` the integration slice `[kk+1:]` is
likewise empty (`kk = ⌊2·(1+0)/(2·1)⌋ = 1`): no grid point satisfies
`x > 0`, so delta and derivative are `0` for any composed density. -/
theorem deltaDeriv_empty_L_one (cfx : ℕ → ℂ) :
    deltaDeriv 2 (1 : ℝ) cfx 0 = (0, 0) := by
  simp only [deltaDeriv]
  have hfl : ⌊((2 : ℕ) : ℝ) * (1 + ((0 : ℂ)).re) / (2 * (1 : ℝ))⌋ = 1 := by
    norm_num
  rw [hfl]
  have hS : (Finset.range 2).filter (fun i => sliceStart 2 (1 + 1) ≤ i) = ∅ := by decide
  rw [hS]
  simp

/-- C10 counterexample: at `nx = 2`, `L = -1`, `target_delta = 0` (with
`sigma = 2`, `q = 1/100`, `ncomp = 10000`) the pipeline runs to the loop —
the grid is `[1, 0]`, the slice above `kk = 1` is empty, so delta at the
initial iterate `eps_0 = 0` equals the target exactly and the residual
test passes — yet the entry point returns the failure sentinel, not
`0.0`: the final check `Re eps_0 < -L or Re eps_0 > L` rejects `0` when
`L` is negative.  So the claim does not hold for every choice of the
remaining parameters. -/
theorem c10_counterexample :
    Complex.abs ((initState 2 (-1 : ℝ) (cfxU 2 (1/100) 10000 2 (-1))).delta - ((0 : ℝ) : ℂ))
        ≤ tolNewton ∧
    get_epsilon_unbounded 0 2 (1/100) 10000 2 (-1) 1 = some (PyFloat.inf, Msg.errWindow) ∧
    PyFloat.inf ≠ PyFloat.val 0 := by
  have hinit : initState 2 (-1 : ℝ) (cfxU 2 (1/100) 10000 2 (-1)) = ⟨0, 0, 0⟩ := by
    unfold initState
    rw [deltaDeriv_empty_L_neg_one]
  have habs : Complex.abs (((⟨0, 0, 0⟩ : NS)).delta - ((0 : ℝ) : ℂ)) ≤ tolNewton := by
    simp [tolNewton]
    norm_num
  refine ⟨by rw [hinit]; exact habs, ?_, fun h => PyFloat.noConfusion h⟩
  simp only [get_epsilon_unbounded]
  rw [hinit]
  have h1 : newtonLoop 2 (-1) 0 (cfxU 2 (1/100) 10000 2 (-1)) 1 ⟨0, 0, 0⟩ =
      some ⟨0, 0, 0⟩ :=
    newtonLoop_converged 2 (-1) 0 _ 0 _ habs
  rw [h1, Option.map_some']
  unfold epilogue
  rw [if_pos]
  left
  simp

/-- C10 amended: provided `0 ≤ L`, if the delta evaluated at the initial
iterate `eps_0 = 0` already satisfies `|delta_temp - target_delta| ≤ 1e-10`,
the Newton loop body is never entered (the loop returns its initial state
at any positive fuel) and each entry point returns `0.0` through the
success branch. -/
theorem c10_amended (target sigma q ncomp : ℝ) (nx : ℕ) (L : ℝ) (fuel : ℕ) (hL : 0 ≤ L) :
    (Complex.abs ((initState nx L (cfxU sigma q ncomp nx L)).delta - (target : ℂ)) ≤ tolNewton →
        newtonLoop nx L target (cfxU sigma q ncomp nx L) (fuel + 1)
            (initState nx L (cfxU sigma q ncomp nx L)) =
          some (initState nx L (cfxU sigma q ncomp nx L)) ∧
        get_epsilon_unbounded target sigma q ncomp nx L (fuel + 1) =
          some (PyFloat.val 0, Msg.reportUnbounded ncomp target 0)) ∧
    (Complex.abs ((initState nx L (cfxB sigma q ncomp nx L)).delta - (target : ℂ)) ≤ tolNewton →
        newtonLoop nx L target (cfxB sigma q ncomp nx L) (fuel + 1)
            (initState nx L (cfxB sigma q ncomp nx L)) =
          some (initState nx L (cfxB sigma q ncomp nx L)) ∧
        get_epsilon_bounded target sigma q ncomp nx L (fuel + 1) =
          some (PyFloat.val 0, Msg.reportBounded ncomp target 0)) := by
  constructor <;> intro h
  · have hloop := newtonLoop_converged nx L target (cfxU sigma q ncomp nx L) fuel _ h
    refine ⟨hloop, ?_⟩
    simp only [get_epsilon_unbounded]
    rw [hloop, Option.map_some']
    unfold epilogue
    have hre : (initState nx L (cfxU sigma q ncomp nx L)).eps.re = 0 := by
      simp [initState]
    rw [if_neg, hre]
    rw [hre]
    rintro (hc | hc) <;> linarith
  · have hloop := newtonLoop_converged nx L target (cfxB sigma q ncomp nx L) fuel _ h
    refine ⟨hloop, ?_⟩
    simp only [get_epsilon_bounded]
    rw [hloop, Option.map_some']
    unfold epilogue
    have hre : (initState nx L (cfxB sigma q ncomp nx L)).eps.re = 0 := by
      simp [initState]
    rw [if_neg, hre]
    rw [hre]
    rintro (hc | hc) <;> linarith

/-- C10 amended, witness: at `nx = 2`, `L = 1`, `target_delta = 0` the
slice above `kk = 1` is empty, so the initial residual is `0 ≤ 1e-10`,
the loop body is never entered, and the unbounded entry point returns
`0.0` with the success diagnostic. -/
theorem c10_amended_witness :
    newtonLoop 2 1 0 (cfxU 2 (1/100) 10000 2 1) (0 + 1)
        (initState 2 1 (cfxU 2 (1/100) 10000 2 1)) =
      some (initState 2 1 (cfxU 2 (1/100) 10000 2 1)) ∧
    get_epsilon_unbounded 0 2 (1/100) 10000 2 1 (0 + 1) =
      some (PyFloat.val 0, Msg.reportUnbounded 10000 0 0) :=
  (c10_amended 0 2 (1/100) 10000 2 1 0 (by norm_num)).1
    (by
      unfold initState
      rw [deltaDeriv_empty_L_one]
      simp [tolNewton]
      norm_num)

/-- With `sigma = 0` the Gaussian mixture weight collapses to `0`
(`1/sqrt(0) = 0` in the real field). -/
theorem ALinv_sigma_zero (q v : ℝ) : ALinv 0 q v = 0 := by
  unfold ALinv
  rw [show 2 * Real.pi * (0 : ℝ) ^ 2 = 0 by ring, Real.sqrt_zero]
  simp

/-- With `sigma = 0` the remove/add density is identically zero. -/
theorem fxU_sigma_zero (q : ℝ) (nx : ℕ) (L : ℝ) (j : ℕ) : fxU 0 q nx L j = 0 := by
  unfold fxU
  split_ifs with h
  · rw [ALinv_sigma_zero, zero_mul]
  · rfl

/-- With `sigma = 0` the substitution density is identically zero. -/
theorem fxB_sigma_zero (q : ℝ) (nx : ℕ) (L : ℝ) (j : ℕ) : fxB 0 q nx L j = 0 := by
  unfold fxB
  split_ifs with h
  · rw [ALinv_sigma_zero, zero_mul]
  · rfl

/-- The half-swap of a constant function is that constant. -/
theorem flipA_const (α : Type) (nx : ℕ) (v : ℕ → α) (a : α) (h : ∀ i, v i = a) (i : ℕ) :
    flipA nx v i = a := by
  unfold flipA
  split_ifs <;> exact h _

/-- Composing a zero density yields the zero array (the complex power of
`0` with a nonzero exponent is `0`). -/
theorem cfxOf_zero (nx : ℕ) (L ncomp : ℝ) (fx : ℕ → ℝ) (hfx : ∀ j, fx j = 0)
    (hn : (ncomp : ℂ) ≠ 0) (i : ℕ) : cfxOf nx L ncomp fx i = 0 := by
  unfold cfxOf
  have hFF : ∀ k, FF1 nx L fx k = 0 := by
    intro k
    unfold FF1 dftK
    apply Finset.sum_eq_zero
    intro j hj
    dsimp only
    rw [flipA_const ℝ nx fx 0 hfx j]
    simp

  have hid : ∀ j, idftK nx
      (fun k => FF1 nx L fx k ^ (ncomp : ℂ) / ((2 * L / nx : ℝ) : ℂ)) j = 0 := by
    intro j
    unfold idftK
    rw [Finset.sum_eq_zero, mul_zero]
    intro k hk
    dsimp only
    rw [hFF k, Complex.zero_cpow hn, zero_div, zero_mul]
  exact flipA_const ℂ nx _ 0 hid i

/-- If the composed density is zero everywhere, the tail-integral
evaluation returns `(0, 0)` at every candidate epsilon. -/
theorem deltaDeriv_cfx_zero (nx : ℕ) (L : ℝ) (cfx : ℕ → ℂ) (h : ∀ i, cfx i = 0)
    (eps : ℂ) : deltaDeriv nx L cfx eps = (0, 0) := by
  simp only [deltaDeriv]
  rw [Finset.sum_eq_zero (fun i _ => by rw [h i, mul_zero]),
    Finset.sum_eq_zero (fun i _ => by rw [h i, mul_zero]), zero_mul]

/-- With a zero composed density, a positive residual and a positive
window, the Newton loop never returns: the iterate stays at `0`
(the Newton step divides by the zero derivative, which is `0` in the real
field) and the residual never shrinks. -/
theorem newtonLoop_stuck (nx : ℕ) (L target : ℝ) (cfx : ℕ → ℂ) (h : ∀ i, cfx i = 0)
    (hg : tolNewton < Complex.abs (0 - (target : ℂ))) (hL : 0 < L) :
    ∀ fuel, newtonLoop nx L target cfx fuel ⟨0, 0, 0⟩ = none := by
  intro fuel
  induction fuel with
  | zero => rfl
  | succ n ih =>
    simp only [newtonLoop]
    rw [if_pos (show tolNewton < Complex.abs (((⟨0, 0, 0⟩ : NS)).delta - (target : ℂ)) from hg)]
    have he : ((⟨0, 0, 0⟩ : NS)).eps -
        (((⟨0, 0, 0⟩ : NS)).delta - (target : ℂ)) / ((⟨0, 0, 0⟩ : NS)).deriv = 0 := by
      simp
    rw [he]
    rw [if_neg]
    · rw [Finset.sum_eq_zero (fun i _ => by rw [h i, mul_zero]),
        Finset.sum_eq_zero (fun i _ => by rw [h i, mul_zero]), zero_mul]
      exact ih
    · rintro (hc | hc) <;> (simp [npLT] at hc) <;> linarith

/-- C9 (the code lacks the claimed validation): with the invalid
configuration `sigma = 0` (all other parameters at their defaults) neither
entry point fails fast with a descriptive error; the model has no error
path at all, the density and hence delta are identically zero, the Newton
step divides by the zero derivative, and the loop never terminates at any
fuel.  (In floating-point the same input silently returns `0.0`: the NaNs
produced by `1/sqrt(0) * 0` make the `while` guard false immediately.) -/
theorem no_validation_sigma_zero :
    ∀ fuel : ℕ,
      get_epsilon_unbounded 1e-6 0 (1/100) 10000 1000000 20 fuel = none ∧
      get_epsilon_bounded 1e-6 0 (1/100) 10000 1000000 20 fuel = none := by
  have hn : ((10000 : ℝ) : ℂ) ≠ 0 := by norm_num
  have hg : tolNewton < Complex.abs (0 - ((1e-6 : ℝ) : ℂ)) := by
    rw [zero_sub, map_neg_eq_map, Complex.abs_ofReal, tolNewton,
      abs_of_pos (by norm_num : (0 : ℝ) < 1e-6)]
    norm_num
  have hcfxU : ∀ i, cfxU 0 (1/100) 10000 1000000 20 i = 0 := fun i =>
    cfxOf_zero _ _ _ _ (fxU_sigma_zero _ _ _) hn i
  have hcfxB : ∀ i, cfxB 0 (1/100) 10000 1000000 20 i = 0 := fun i =>
    cfxOf_zero _ _ _ _ (fxB_sigma_zero _ _ _) hn i
  intro fuel
  constructor
  · simp only [get_epsilon_unbounded]
    rw [show initState 1000000 20 (cfxU 0 (1/100) 10000 1000000 20) = ⟨0, 0, 0⟩ from by
      unfold initState
      rw [deltaDeriv_cfx_zero _ _ _ hcfxU]]
    rw [newtonLoop_stuck _ _ _ _ hcfxU hg (by norm_num) fuel]
    rfl
  · simp only [get_epsilon_bounded]
    rw [show initState 1000000 20 (cfxB 0 (1/100) 10000 1000000 20) = ⟨0, 0, 0⟩ from by
      unfold initState
      rw [deltaDeriv_cfx_zero _ _ _ hcfxB]]
    rw [newtonLoop_stuck _ _ _ _ hcfxB hg (by norm_num) fuel]
    rfl

end PLD
